import Mathlib

/-!
Shallow embedding of `src/sdrrewind.py` (SDR-Rewind): the rolling chunked
buffer store.  A capture directory is modelled as a list of descriptor files
(`*.json`, each either parseable into its fields or malformed) together with a
list of raw-sample files (`*.iq`, stem paired with its byte content).  Times
and durations are rationals (the Python floats hold clock seconds; the
operations compared here are order comparisons and sums, modelled exactly).

The three operations embedded are `prune_seconds` (retention enforcer,
lines 97-121), `extract_slice` (window extractor, lines 125-163) and the
chunk-writing step of `capture_loop` (lines 69-83).
-/

namespace SdrRewind

/-- Parsed field set of a chunk descriptor, as read by `json.loads` plus the
per-field accesses in the source.  `timestamp_utc = some t` means the field is
present and `datetime.fromisoformat` yields the instant `t`; a present but
unparsable timestamp behaves identically to an absent one at every use site
(the extractor's `try` swallows either, the pruner never reads it), so both
are `none`.  `duration_s = some d` means `float(meta.get ("duration_s", 0))`
yields `d`; an absent field yields `0` via the default (`none` here, read back
with `getD 0`).  A present but non-numeric duration raises inside both
consumers' `try` blocks, which is observationally the whole-file-malformed
case (`JsonFile.content = none`): the pruner then uses duration 0 and the
extractor skips the file, exactly as for an unreadable file. -/
structure MetaFields where
  center_freq_hz : Option Int
  samp_rate_hz : Option Int
  timestamp_utc : Option Rat
  duration_s : Option Rat
deriving DecidableEq

/-- One descriptor file `stem ++ ".json"` in the capture directory.
`content = none` models a file whose text `json.loads` rejects (malformed or
unreadable descriptor). -/
structure JsonFile where
  stem : String
  content : Option MetaFields
deriving DecidableEq

/-- A capture directory: the descriptor files and the raw-sample files
(`stem` paired with the byte content of `stem ++ ".iq"`).  List order models
directory enumeration order. -/
structure Dir where
  jsons : List JsonFile
  iqs : List (String × List Nat)
deriving DecidableEq

/-- The duration the pruner attributes to a descriptor file:
`float(meta.get ("duration_s", 0))` with every failure mode of the
surrounding `try` collapsed to `0` (source lines 102-106). -/
def durOf (j : JsonFile) : Rat :=
  match j.content with
  | none => 0
  | some m => m.duration_s.getD 0

/-- Code points of a string, the units Python compares strings by. -/
def strCodes (s : String) : List Nat := s.data.map Char.toNat

/-- The sort key `sorted(outdir.glob ("*.json"))` uses: the file name,
compared code point by code point as Python compares paths.  All paths share
the directory, so the key is `stem ++ ".json"`. -/
def nameKey (j : JsonFile) : List Nat := strCodes (j.stem ++ ".json")

/-- Stems of a list of descriptor files. -/
def stems (js : List JsonFile) : List String := js.map (·.stem)

/-- Sum of the durations of a list of descriptor files. -/
def sumDur (js : List JsonFile) : Rat := (js.map durOf).sum

/-- A descriptor that `json.loads` accepts. -/
def validJson (j : JsonFile) : Bool := j.content.isSome

/-- Insertion of `x` into a list ordered by `key`, before the first element
of greater-or-equal key.  `sortOn` folds from the right, so an element is
inserted into the sorted tail of the elements that followed it and lands
before any of them that share its key: the sort is stable, matching
Python's `sorted`/`list.sort`. -/
def ordInsert {α β : Type} [LinearOrder β] (key : α → β) (x : α) : List α → List α
  | [] => [x]
  | y :: ys => if key x ≤ key y then x :: y :: ys else y :: ordInsert key x ys

/-- Stable sort by `key`, the model of Python's `sorted(..., key=...)` and
`list.sort(key=...)`. -/
def sortOn {α β : Type} [LinearOrder β] (key : α → β) : List α → List α
  | [] => []
  | x :: xs => ordInsert key x (sortOn key xs)

/-- The accumulation loop of `prune_seconds` (source lines 99-110) run over a
visiting order: `total += dur; kept.append(path); if total >= buffer_sec:
break`.  Returns the kept list. -/
def keepAccum (bufferSec : Int) : Rat → List JsonFile → List JsonFile
  | _, [] => []
  | total, j :: rest =>
    if (bufferSec : Rat) ≤ total + durOf j then [j]
    else j :: keepAccum bufferSec (total + durOf j) rest

/-- The files `prune_seconds` keeps: the accumulation loop run over
`reversed(sorted(outdir.glob ("*.json")))`. -/
def keptFiles (d : Dir) (bufferSec : Int) : List JsonFile :=
  keepAccum bufferSec 0 ((sortOn nameKey d.jsons).reverse)

/-- The stems of the kept files (`keep_set` in the source, line 112). -/
def keptStems (d : Dir) (bufferSec : Int) : List String :=
  stems (keptFiles d bufferSec)

/-- `prune_seconds outdir buffer_sec` (source lines 97-121): every descriptor
whose stem is outside `keep_set` is unlinked together with the raw file of the
same stem; a raw file whose stem never appears among the descriptors is
untouched, and a missing raw file at unlink time is ignored
(`FileNotFoundError` pass). -/
def pruneDir (d : Dir) (bufferSec : Int) : Dir :=
  { jsons := d.jsons.filter (fun j => j.stem ∈ keptStems d bufferSec),
    iqs := d.iqs.filter
      (fun p => p.1 ∈ keptStems d bufferSec ∨ p.1 ∉ stems d.jsons) }

/-- One entry of the `metas` list built by `extract_slice` (source line 140):
the parsed instant, the parsed duration, and the descriptor file it came from
(the source keeps the path and re-reads it; contents are static here). -/
structure SelEntry where
  t : Rat
  dur : Rat
  file : JsonFile
deriving DecidableEq

/-- The per-file body of the selection loop of `extract_slice` (source lines
131-140): parse the descriptor, parse `timestamp_utc`, read the duration, and
apply `t <= end_time and t_end >= start_time` with `t_end = t + dur`; any
failure inside the `try` skips the file (`continue`). -/
def selTest (wstart wend : Rat) (j : JsonFile) : Option SelEntry :=
  match j.content with
  | none => none
  | some m =>
    match m.timestamp_utc with
    | none => none
    | some t =>
      if t ≤ wend ∧ wstart ≤ t + m.duration_s.getD 0 then
        some ⟨t, m.duration_s.getD 0, j⟩
      else none

/-- The `metas` list built by the selection loop, in directory enumeration
order. -/
def selectChunks (js : List JsonFile) (wstart wend : Rat) : List SelEntry :=
  js.filterMap (selTest wstart wend)

/-- `meta_path.with_suffix('.iq').read_bytes()`: the content of the raw file
with the given stem, if it exists. -/
def lookupIq (iqs : List (String × List Nat)) (st : String) : Option (List Nat) :=
  (iqs.find? (fun p => p.1 == st)).map (·.2)

/-- The concatenation loop of `extract_slice` (source lines 147-150): append
each selected chunk's raw bytes to the output file; a failing
`read_bytes` (missing raw file) raises, leaving the bytes written so far in
the already-opened output file (`error` case). -/
def writeLoop (iqs : List (String × List Nat)) :
    List SelEntry → List Nat → Except (List Nat) (List Nat)
  | [], acc => .ok acc
  | e :: rest, acc =>
    match lookupIq iqs e.file.stem with
    | none => .error acc
    | some b => writeLoop iqs rest (acc ++ b)

/-- The combined output descriptor written by `extract_slice`
(source lines 152-162). -/
structure Combined where
  center_freq_hz : Int
  samp_rate_hz : Int
  timestamp_utc : Rat
  start_rel_s : Rat
  duration_s : Rat
deriving DecidableEq

/-- Outcome of one `extract_slice` invocation.  `noOverlap` is the
`sys.exit(1)` path with nothing yet written; `readFail w` is an uncaught
`FileNotFoundError` from `read_bytes` after `w` bytes reached the opened
output file; `descFail b` is an uncaught `KeyError` while building the
combined descriptor, after the full byte output `b` was written. -/
inductive ExtractResult
  | noOverlap
  | readFail (written : List Nat)
  | descFail (bytesOut : List Nat)
  | ok (bytesOut : List Nat) (desc : Combined)
deriving DecidableEq

/-- `extract_slice outdir start_rel_s duration_s outfile` (source lines
125-163).  `now` is the `datetime.now` reading at line 126, `tEmit` the
`utcnow_iso()` reading at line 156; the window resolves to
`[now + rel, now + rel + du]` and the selected chunks are sorted by parsed
instant (`metas.sort(key=lambda x: x[0])`, a stable sort). -/
def extractSlice (d : Dir) (now rel du tEmit : Rat) : ExtractResult :=
  match sortOn SelEntry.t (selectChunks d.jsons (now + rel) (now + rel + du)) with
  | [] => .noOverlap
  | first :: rest =>
    match writeLoop d.iqs (first :: rest) [] with
    | .error w => .readFail w
    | .ok bytes =>
      match first.file.content with
      | none => .descFail bytes
      | some m =>
        match m.center_freq_hz, m.samp_rate_hz with
        | some c, some s => .ok bytes ⟨c, s, tEmit, rel, du⟩
        | some _, none => .descFail bytes
        | none, _ => .descFail bytes

/-- Process termination status of the `extract` command: `0` on success, `1`
for the explicit `sys.exit(1)` and likewise for an uncaught exception. -/
def extractExit : ExtractResult → Nat
  | .ok _ _ => 0
  | _ => 1

/-- Content of the raw output artifact after the invocation, if the file was
created at all (the source opens it only after the empty-selection check). -/
def rawArtifact : ExtractResult → Option (List Nat)
  | .noOverlap => none
  | .readFail w => some w
  | .descFail b => some b
  | .ok b _ => some b

/-- The combined descriptor artifact, written only on full success. -/
def descArtifact : ExtractResult → Option Combined
  | .ok _ c => some c
  | _ => none

/-- Python `int()` truncation toward zero on a rational. -/
def pyTrunc (q : Rat) : Int := if q < 0 then -⌊-q⌋ else ⌊q⌋

/-- One chunk write of `capture_loop` (source lines 69-83).  `t0` is the
`time.time()` reading taken at line 70, before the blocking
`read_samples` call; `tMeta` is the instant `utcnow_iso()` is evaluated at
line 78, after that call returns.  The file stem is `int(t0 * 1000)`; the
descriptor records `timestamp_utc = tMeta` and the nominal configured
duration. -/
def captureChunkFiles (freqHz sampRate chunkSec : Int) (t0 tMeta : Rat)
    (iqBytes : List Nat) : JsonFile × (String × List Nat) :=
  ({ stem := toString (pyTrunc (t0 * 1000)),
     content := some
       { center_freq_hz := some freqHz,
         samp_rate_hz := some sampRate,
         timestamp_utc := some tMeta,
         duration_s := some (chunkSec : Rat) } },
   (toString (pyTrunc (t0 * 1000)), iqBytes))

/-- Descriptor field content used by the concrete example directories. -/
def mkMeta (freq samp : Int) (t dd : Rat) : MetaFields :=
  ⟨some freq, some samp, some t, some dd⟩

/-- Three complete 5-second chunks (retention examples). -/
def dirW1 : Dir :=
  { jsons := [⟨"100", some (mkMeta 100 1000 1 5)⟩,
              ⟨"200", some (mkMeta 100 1000 2 5)⟩,
              ⟨"300", some (mkMeta 100 1000 3 5)⟩],
    iqs := [("100", [1]), ("200", [2]), ("300", [3])] }

/-- Two complete 5-second chunks (retention-zero example). -/
def dirX1 : Dir :=
  { jsons := [⟨"100", some (mkMeta 100 1000 1 5)⟩,
              ⟨"200", some (mkMeta 100 1000 2 5)⟩],
    iqs := [("100", [1]), ("200", [2])] }

/-- Chunks starting at 0, 5, 10, 15 seconds with duration 5 each. -/
def dirC2 : Dir :=
  { jsons := [⟨"0", some (mkMeta 100 1000 0 5)⟩,
              ⟨"5", some (mkMeta 100 1000 5 5)⟩,
              ⟨"10", some (mkMeta 100 1000 10 5)⟩,
              ⟨"15", some (mkMeta 100 1000 15 5)⟩],
    iqs := [("0", [0]), ("5", [5]), ("10", [10]), ("15", [15])] }

/-- The same directory as `dirC2` enumerated in reverse order. -/
def dirC2b : Dir :=
  { jsons := [⟨"15", some (mkMeta 100 1000 15 5)⟩,
              ⟨"10", some (mkMeta 100 1000 10 5)⟩,
              ⟨"5", some (mkMeta 100 1000 5 5)⟩,
              ⟨"0", some (mkMeta 100 1000 0 5)⟩],
    iqs := [("0", [0]), ("5", [5]), ("10", [10]), ("15", [15])] }

/-- Two chunks with identical embedded start instants, distinct raw bytes. -/
def dirX3a : Dir :=
  { jsons := [⟨"7", some (mkMeta 100 1000 10 5)⟩,
              ⟨"8", some (mkMeta 100 1000 10 5)⟩],
    iqs := [("7", [1]), ("8", [2])] }

/-- The same directory as `dirX3a` enumerated in reverse order. -/
def dirX3b : Dir :=
  { jsons := [⟨"8", some (mkMeta 100 1000 10 5)⟩,
              ⟨"7", some (mkMeta 100 1000 10 5)⟩],
    iqs := [("7", [1]), ("8", [2])] }

/-- One chunk far outside the extraction windows used below. -/
def dirW4 : Dir :=
  { jsons := [⟨"100", some (mkMeta 100 1000 100 5)⟩],
    iqs := [("100", [1])] }

/-- A descriptor whose raw-sample file is missing. -/
def dirX5e : Dir :=
  { jsons := [⟨"100", some (mkMeta 100 1000 0 5)⟩], iqs := [] }

/-- Chunk "100" is complete; chunk "200" has a descriptor but no raw file. -/
def dirX5p : Dir :=
  { jsons := [⟨"100", some (mkMeta 100 1000 1 5)⟩,
              ⟨"200", some (mkMeta 100 1000 2 5)⟩],
    iqs := [("100", [7])] }

/-- A selected chunk whose raw-sample file is missing. -/
def dirW5 : Dir :=
  { jsons := [⟨"100", some (mkMeta 100 1000 0 5)⟩], iqs := [] }

/-- A malformed descriptor ("100") next to a complete chunk ("200"). -/
def dirX6 : Dir :=
  { jsons := [⟨"100", none⟩, ⟨"200", some (mkMeta 100 1000 2 5)⟩],
    iqs := [("100", [1]), ("200", [2])] }

/-- A malformed descriptor among two valid chunks. -/
def dirW6 : Dir :=
  { jsons := [⟨"50", none⟩,
              ⟨"60", some (mkMeta 100 1000 6 5)⟩,
              ⟨"70", some (mkMeta 100 1000 7 5)⟩],
    iqs := [("50", [1]), ("60", [2]), ("70", [3])] }

/-- Stems "9" and "10": numeric order and lexicographic filename order
disagree, and the embedded instants follow the numeric order. -/
def dirX8 : Dir :=
  { jsons := [⟨"9", some (mkMeta 100 1000 9 5)⟩,
              ⟨"10", some (mkMeta 100 1000 10 5)⟩],
    iqs := [("9", [9]), ("10", [10])] }

/-- Two complete chunks, "200" newer by both name and embedded instant. -/
def dirW8 : Dir :=
  { jsons := [⟨"100", some (mkMeta 100 1000 1 5)⟩,
              ⟨"200", some (mkMeta 100 1000 2 5)⟩],
    iqs := [("100", [1]), ("200", [2])] }

/-- Two chunks with different capture parameters (a mid-capture retune). -/
def dirW9 : Dir :=
  { jsons := [⟨"100", some (mkMeta 111 1000 0 5)⟩,
              ⟨"200", some (mkMeta 222 2000 5 5)⟩],
    iqs := [("100", [1]), ("200", [2])] }

/-- Three complete 5-second chunks (idempotence example). -/
def dirW10 : Dir :=
  { jsons := [⟨"100", some (mkMeta 100 1000 1 5)⟩,
              ⟨"200", some (mkMeta 100 1000 2 5)⟩,
              ⟨"300", some (mkMeta 100 1000 3 5)⟩],
    iqs := [("100", [1]), ("200", [2]), ("300", [3])] }

/-! ### Generic lemmas about the stable sort -/

theorem ordInsert_perm {α β : Type} [LinearOrder β] (key : α → β) (x : α) :
    ∀ l : List α, (ordInsert key x l).Perm (x :: l) := by
  intro l
  induction l with
  | nil => simp [ordInsert]
  | cons y ys ih =>
    by_cases h : key x ≤ key y
    · simp [ordInsert, h]
    · simp only [ordInsert, if_neg h]
      exact (ih.cons y).trans (List.Perm.swap x y ys)

theorem sortOn_perm {α β : Type} [LinearOrder β] (key : α → β) :
    ∀ l : List α, (sortOn key l).Perm l := by
  intro l
  induction l with
  | nil => simp [sortOn]
  | cons x xs ih =>
    exact (ordInsert_perm key x (sortOn key xs)).trans (ih.cons x)

theorem mem_ordInsert {α β : Type} [LinearOrder β] (key : α → β) (x b : α)
    (l : List α) : b ∈ ordInsert key x l ↔ b = x ∨ b ∈ l := by
  rw [(ordInsert_perm key x l).mem_iff]
  simp

theorem ordInsert_pairwise {α β : Type} [LinearOrder β] (key : α → β) (x : α)
    (l : List α) (h : l.Pairwise (fun a b => key a ≤ key b)) :
    (ordInsert key x l).Pairwise (fun a b => key a ≤ key b) := by
  induction l with
  | nil => simp [ordInsert]
  | cons y ys ih =>
    rcases List.pairwise_cons.mp h with ⟨hy, hys⟩
    by_cases hxy : key x ≤ key y
    · rw [ordInsert, if_pos hxy]
      refine List.pairwise_cons.mpr ⟨?_, h⟩
      intro b hb
      rcases List.mem_cons.mp hb with rfl | hb
      · exact hxy
      · exact hxy.trans (hy b hb)
    · rw [ordInsert, if_neg hxy]
      refine List.pairwise_cons.mpr ⟨?_, ih hys⟩
      intro b hb
      rcases (mem_ordInsert key x b ys).mp hb with rfl | hb
      · exact (not_le.mp hxy).le
      · exact hy b hb

theorem sortOn_pairwise {α β : Type} [LinearOrder β] (key : α → β) :
    ∀ l : List α, (sortOn key l).Pairwise (fun a b => key a ≤ key b) := by
  intro l
  induction l with
  | nil => simp [sortOn]
  | cons x xs ih => exact ordInsert_pairwise key x (sortOn key xs) ih

theorem pairwise_lt_of_le_of_nodup {α β : Type} [LinearOrder β] (key : α → β) :
    ∀ {l : List α}, l.Pairwise (fun a b => key a ≤ key b) →
      (l.map key).Nodup → l.Pairwise (fun a b => key a < key b) := by
  intro l
  induction l with
  | nil => intro _ _; exact List.Pairwise.nil
  | cons a t ih =>
    intro hle hnd
    rcases List.pairwise_cons.mp hle with ⟨ha, ht⟩
    rw [List.map_cons] at hnd
    rcases List.nodup_cons.mp hnd with ⟨hamem, htnd⟩
    refine List.pairwise_cons.mpr ⟨?_, ih ht htnd⟩
    intro b hb
    refine lt_of_le_of_ne (ha b hb) ?_
    intro hcontra
    exact hamem (hcontra ▸ List.mem_map_of_mem key hb)

theorem eq_of_perm_of_pairwise_lt {α β : Type} [LinearOrder β] (key : α → β) :
    ∀ {l₁ l₂ : List α}, l₁.Perm l₂ →
      l₁.Pairwise (fun a b => key a < key b) →
      l₂.Pairwise (fun a b => key a < key b) → l₁ = l₂ := by
  intro l₁
  induction l₁ with
  | nil =>
    intro l₂ hp _ _
    exact (hp.nil_eq)
  | cons a t ih =>
    intro l₂ hp h₁ h₂
    cases l₂ with
    | nil => exact absurd (List.perm_nil.mp hp) (by simp)
    | cons b u =>
      have hab : a = b := by
        rcases List.mem_cons.mp (hp.subset (List.mem_cons_self a t)) with rfl | hau
        · rfl
        · rcases List.mem_cons.mp (hp.symm.subset (List.mem_cons_self b u)) with rfl | hbt
          · rfl
          · have h1 : key a < key b := (List.pairwise_cons.mp h₁).1 b hbt
            have h2 : key b < key a := (List.pairwise_cons.mp h₂).1 a hau
            exact absurd h1 (lt_asymm h2)
      subst hab
      have := ih (hp.cons_inv) (List.pairwise_cons.mp h₁).2 (List.pairwise_cons.mp h₂).2
      rw [this]

theorem sortOn_eq_of_perm {α β : Type} [LinearOrder β] (key : α → β)
    {l₁ l₂ : List α} (hp : l₁.Perm l₂) (hnd : (l₁.map key).Nodup) :
    sortOn key l₁ = sortOn key l₂ := by
  refine eq_of_perm_of_pairwise_lt key
    (((sortOn_perm key l₁).trans hp).trans (sortOn_perm key l₂).symm) ?_ ?_
  · exact pairwise_lt_of_le_of_nodup key (sortOn_pairwise key l₁)
      (((sortOn_perm key l₁).map key).symm.nodup hnd)
  · exact pairwise_lt_of_le_of_nodup key (sortOn_pairwise key l₂)
      ((((sortOn_perm key l₂).map key).symm.nodup (((hp.map key)).nodup hnd)))

theorem sortOn_filter {α β : Type} [LinearOrder β] (key : α → β)
    (p : α → Bool) (l : List α) (hnd : (l.map key).Nodup) :
    sortOn key (l.filter p) = (sortOn key l).filter p := by
  have hperm : (sortOn key (l.filter p)).Perm ((sortOn key l).filter p) :=
    (sortOn_perm key (l.filter p)).trans ((sortOn_perm key l).symm.filter p)
  have hnd1 : ((l.filter p).map key).Nodup :=
    ((l.filter_sublist).map key).nodup hnd
  refine eq_of_perm_of_pairwise_lt key hperm ?_ ?_
  · exact pairwise_lt_of_le_of_nodup key (sortOn_pairwise key (l.filter p))
      (((sortOn_perm key (l.filter p)).map key).symm.nodup hnd1)
  · refine pairwise_lt_of_le_of_nodup key
      (List.Pairwise.sublist ((sortOn key l).filter_sublist) (sortOn_pairwise key l)) ?_
    exact (((sortOn key l).filter_sublist).map key).nodup
      (((sortOn_perm key l).map key).symm.nodup hnd)

/-! ### Lemmas about the retention accumulation loop -/

theorem sumDur_cons (j : JsonFile) (l : List JsonFile) :
    sumDur (j :: l) = durOf j + sumDur l := by
  simp [sumDur]

theorem keepAccum_idem (R : Int) :
    ∀ (l : List JsonFile) (acc : Rat),
      keepAccum R acc (keepAccum R acc l) = keepAccum R acc l := by
  intro l
  induction l with
  | nil => intro acc; rfl
  | cons j rest ih =>
    intro acc
    by_cases h : (R : Rat) ≤ acc + durOf j
    · simp only [keepAccum, if_pos h]
    · simp only [keepAccum, if_neg h]
      rw [ih (acc + durOf j)]

theorem keepAccum_append (R : Int) :
    ∀ (l : List JsonFile) (acc : Rat), ∃ t, l = keepAccum R acc l ++ t := by
  intro l
  induction l with
  | nil => intro acc; exact ⟨[], rfl⟩
  | cons j rest ih =>
    intro acc
    by_cases h : (R : Rat) ≤ acc + durOf j
    · exact ⟨rest, by simp only [keepAccum, if_pos h]; rfl⟩
    · rcases ih (acc + durOf j) with ⟨t, ht⟩
      refine ⟨t, ?_⟩
      simp only [keepAccum, if_neg h, List.cons_append]
      rw [← ht]

theorem keepAccum_subset {R : Int} {l : List JsonFile} {acc : Rat} {j : JsonFile}
    (h : j ∈ keepAccum R acc l) : j ∈ l := by
  rcases keepAccum_append R l acc with ⟨t, ht⟩
  rw [ht]
  exact List.mem_append_left t h

theorem keepAccum_sum_bound (R : Int) (dd : Rat) :
    ∀ (l : List JsonFile) (acc : Rat), (∀ j ∈ l, durOf j = dd) → acc < R →
      (R : Rat) ≤ acc + sumDur l →
      (R : Rat) ≤ acc + sumDur (keepAccum R acc l) ∧
        acc + sumDur (keepAccum R acc l) < R + dd := by
  intro l
  induction l with
  | nil =>
    intro acc _ hacc htot
    simp [sumDur] at htot ⊢
    exact absurd htot (not_le.mpr hacc)
  | cons j rest ih =>
    intro acc hall hacc htot
    have hd : durOf j = dd := hall j (List.mem_cons_self j rest)
    by_cases h : (R : Rat) ≤ acc + durOf j
    · simp only [keepAccum, if_pos h]
      have hs : sumDur [j] = durOf j := by simp [sumDur]
      rw [hs, hd]
      rw [hd] at h
      exact ⟨h, by linarith⟩
    · simp only [keepAccum, if_neg h, sumDur_cons]
      have := ih (acc + durOf j)
        (fun x hx => hall x (List.mem_cons_of_mem j hx))
        (not_le.mp h)
        (by rw [sumDur_cons] at htot; linarith)
      constructor
      · linarith [this.1]
      · linarith [this.2]

theorem keepAccum_all (R : Int) (dd : Rat) :
    ∀ (l : List JsonFile) (acc : Rat), (∀ j ∈ l, durOf j = dd) →
      (∀ k : ℕ, k < l.length → acc + dd * ((k : Rat) + 1) < R) →
      keepAccum R acc l = l := by
  intro l
  induction l with
  | nil => intro acc _ _; rfl
  | cons j rest ih =>
    intro acc hall hk
    have hd : durOf j = dd := hall j (List.mem_cons_self j rest)
    have h0 : acc + dd * ((0 : Rat) + 1) < R := hk 0 (by simp)
    have hbreak : ¬ ((R : Rat) ≤ acc + durOf j) := by
      rw [hd]; push_cast at h0 ⊢; linarith
    simp only [keepAccum, if_neg hbreak]
    rw [ih (acc + durOf j) (fun x hx => hall x (List.mem_cons_of_mem j hx))]
    intro k hkr
    have := hk (k + 1) (by simpa using Nat.succ_lt_succ hkr)
    rw [hd]
    push_cast at this ⊢
    linarith

theorem keepAccum_filter_valid (R : Int) :
    ∀ (l : List JsonFile) (acc : Rat), acc < R →
      (keepAccum R acc l).filter validJson =
        keepAccum R acc (l.filter validJson) := by
  intro l
  induction l with
  | nil => intro acc _; rfl
  | cons j rest ih =>
    intro acc hacc
    by_cases hv : validJson j
    · by_cases h : (R : Rat) ≤ acc + durOf j
      · have hL : List.filter validJson (keepAccum R acc (j :: rest)) = [j] := by
          simp only [keepAccum, if_pos h]
          simp [hv]
        have hR : keepAccum R acc (List.filter validJson (j :: rest)) = [j] := by
          rw [List.filter_cons_of_pos hv]
          simp only [keepAccum, if_pos h]
        rw [hL, hR]
      · have hL : List.filter validJson (keepAccum R acc (j :: rest)) =
            j :: List.filter validJson (keepAccum R (acc + durOf j) rest) := by
          simp only [keepAccum, if_neg h, List.filter_cons_of_pos hv]
        have hR : keepAccum R acc (List.filter validJson (j :: rest)) =
            j :: keepAccum R (acc + durOf j) (List.filter validJson rest) := by
          rw [List.filter_cons_of_pos hv]
          simp only [keepAccum, if_neg h]
        rw [hL, hR, ih (acc + durOf j) (not_le.mp h)]
    · have hcontent : j.content = none := by
        cases hc : j.content with
        | none => rfl
        | some m => rw [validJson, hc] at hv; simp at hv
      have hdur : durOf j = 0 := by simp [durOf, hcontent]
      have h : ¬ ((R : Rat) ≤ acc + durOf j) := by
        rw [hdur, add_zero]; exact not_le.mpr hacc
      have hL : List.filter validJson (keepAccum R acc (j :: rest)) =
          List.filter validJson (keepAccum R (acc + durOf j) rest) := by
        simp only [keepAccum, if_neg h, List.filter_cons_of_neg hv]
      have hR : keepAccum R acc (List.filter validJson (j :: rest)) =
          keepAccum R acc (List.filter validJson rest) := by
        simp only [List.filter_cons_of_neg hv]
      rw [hL, hR, hdur, add_zero]
      exact ih acc hacc

theorem mem_keepAccum_iff (R : Int) :
    ∀ (l : List JsonFile) (acc : Rat) (j : JsonFile),
      l.Pairwise (fun a b => nameKey b < nameKey a) →
      (∀ x ∈ l, 0 ≤ durOf x) →
      acc < R → j ∈ l →
      (j ∈ keepAccum R acc l ↔
        acc + sumDur (l.filter (fun x => decide (nameKey j < nameKey x))) < R) := by
  intro l
  induction l with
  | nil => intro acc j _ _ _ hj; exact absurd hj (by simp)
  | cons x rest ih =>
    intro acc j hdesc hpos hacc hj
    rcases List.pairwise_cons.mp hdesc with ⟨hx, hrest⟩
    rcases List.mem_cons.mp hj with rfl | hjr
    · have hfilt : (j :: rest).filter (fun x => decide (nameKey j < nameKey x)) = [] := by
        rw [List.filter_cons_of_neg (by simp)]
        rw [List.filter_eq_nil_iff]
        intro b hb
        simp only [decide_eq_true_eq]
        exact not_lt.mpr (hx b hb).le
      rw [hfilt]
      simp only [sumDur, List.map_nil, List.sum_nil, add_zero]
      refine ⟨fun _ => hacc, fun _ => ?_⟩
      by_cases h : (R : Rat) ≤ acc + durOf j
      · simp only [keepAccum, if_pos h]; exact List.mem_cons_self j []
      · simp only [keepAccum, if_neg h]; exact List.mem_cons_self j _
    · have hlt : nameKey j < nameKey x := hx j hjr
      have hne : j ≠ x := fun hcontra => absurd hlt (hcontra ▸ lt_irrefl _)
      have hfilt : (x :: rest).filter (fun y => decide (nameKey j < nameKey y)) =
          x :: rest.filter (fun y => decide (nameKey j < nameKey y)) :=
        List.filter_cons_of_pos (by simpa using hlt)
      rw [hfilt, sumDur_cons]
      by_cases h : (R : Rat) ≤ acc + durOf x
      · simp only [keepAccum, if_pos h]
        constructor
        · intro hmem
          exact absurd (List.mem_singleton.mp hmem) hne
        · intro hsum
          have hsub : 0 ≤ sumDur (rest.filter (fun y => decide (nameKey j < nameKey y))) := by
            rcases keepAccum_append R rest acc with _
            have : ∀ q ∈ (rest.filter (fun y => decide (nameKey j < nameKey y))).map durOf,
                0 ≤ q := by
              intro q hq
              rcases List.mem_map.mp hq with ⟨y, hy, rfl⟩
              exact hpos y (List.mem_cons_of_mem x (List.mem_of_mem_filter hy))
            exact List.sum_nonneg this
          linarith
      · simp only [keepAccum, if_neg h]
        have hmem : j ∈ x :: keepAccum R (acc + durOf x) rest ↔
            j ∈ keepAccum R (acc + durOf x) rest := by
          simp [hne]
        rw [hmem, ih (acc + durOf x) j hrest
          (fun y hy => hpos y (List.mem_cons_of_mem x hy)) (not_le.mp h) hjr]
        constructor
        · intro hs; linarith
        · intro hs; linarith

/-! ### Directory-level lemmas about pruning -/

theorem char_toNat_injective : Function.Injective Char.toNat := by
  intro a b h
  apply Char.ext
  apply UInt32.ext
  simpa [Char.toNat, UInt32.toNat] using h

theorem strCodes_injective : Function.Injective strCodes := by
  intro s t h
  apply String.ext
  exact List.map_injective_iff.mpr char_toNat_injective h

theorem nameKey_stem_eq {j₁ j₂ : JsonFile} (h : nameKey j₁ = nameKey j₂) :
    j₁.stem = j₂.stem := by
  have hdata := strCodes_injective h
  have : (j₁.stem ++ ".json").data = (j₂.stem ++ ".json").data :=
    congrArg String.data hdata
  rw [String.data_append, String.data_append] at this
  exact String.ext (List.append_cancel_right this)

theorem nodup_nameKey_of_nodup_stems {js : List JsonFile}
    (hnd : (stems js).Nodup) : (js.map nameKey).Nodup := by
  have : js.map nameKey = (stems js).map (fun s => strCodes (s ++ ".json")) := by
    rw [stems, List.map_map]
    rfl
  rw [this]
  refine hnd.map ?_
  intro s t hst
  have := strCodes_injective hst
  have hdata : (s ++ ".json").data = (t ++ ".json").data := congrArg String.data this
  rw [String.data_append, String.data_append] at hdata
  exact String.ext (List.append_cancel_right hdata)

theorem filter_mem_stems_append {l₁ l₂ : List JsonFile}
    (hnd : (stems (l₁ ++ l₂)).Nodup) :
    (l₁ ++ l₂).filter (fun j => j.stem ∈ stems l₁) = l₁ := by
  rw [List.filter_append]
  have h₁ : l₁.filter (fun j => j.stem ∈ stems l₁) = l₁ := by
    rw [List.filter_eq_self]
    intro a ha
    simp only [decide_eq_true_eq]
    exact List.mem_map_of_mem (·.stem) ha
  have h₂ : l₂.filter (fun j => j.stem ∈ stems l₁) = [] := by
    rw [List.filter_eq_nil_iff]
    intro a ha
    simp only [decide_eq_true_eq]
    intro hmem
    rw [stems, List.map_append] at hnd
    rcases List.nodup_append.mp hnd with ⟨_, _, hdisj⟩
    exact hdisj hmem (List.mem_map_of_mem (·.stem) ha)
  rw [h₁, h₂, List.append_nil]

theorem nodup_stems_sorted_reverse {d : Dir} (hnd : (stems d.jsons).Nodup) :
    (stems ((sortOn nameKey d.jsons).reverse)).Nodup := by
  have hperm : (stems ((sortOn nameKey d.jsons).reverse)).Perm (stems d.jsons) := by
    exact (((sortOn nameKey d.jsons).reverse_perm).trans (sortOn_perm nameKey d.jsons)).map _
  exact hperm.symm.nodup hnd

theorem sorted_filter_kept (d : Dir) (R : Int) (hnd : (stems d.jsons).Nodup) :
    (sortOn nameKey d.jsons).filter (fun j => j.stem ∈ keptStems d R) =
      (keptFiles d R).reverse := by
  rcases keepAccum_append R ((sortOn nameKey d.jsons).reverse) 0 with ⟨t, ht⟩
  have hv : (sortOn nameKey d.jsons).reverse = keptFiles d R ++ t := ht
  have hs : sortOn nameKey d.jsons = (keptFiles d R ++ t).reverse := by
    rw [← hv, List.reverse_reverse]
  rw [hs, List.filter_reverse]
  have hnd' : (stems (keptFiles d R ++ t)).Nodup := by
    rw [← hv]
    exact nodup_stems_sorted_reverse hnd
  exact congrArg List.reverse (filter_mem_stems_append hnd')

theorem prune_jsons_perm (d : Dir) (R : Int) (hnd : (stems d.jsons).Nodup) :
    (pruneDir d R).jsons.Perm (keptFiles d R) := by
  have h₁ : (pruneDir d R).jsons =
      d.jsons.filter (fun j => j.stem ∈ keptStems d R) := rfl
  have h₂ : (d.jsons.filter (fun j => j.stem ∈ keptStems d R)).Perm
      ((sortOn nameKey d.jsons).filter (fun j => j.stem ∈ keptStems d R)) :=
    ((sortOn_perm nameKey d.jsons).symm).filter _
  rw [h₁, sorted_filter_kept d R hnd] at *
  exact h₂.trans ((keptFiles d R).reverse_perm)

theorem prune_jsons_sorted (d : Dir) (R : Int) (hnd : (stems d.jsons).Nodup) :
    sortOn nameKey (pruneDir d R).jsons = (keptFiles d R).reverse := by
  have h₁ : (pruneDir d R).jsons =
      d.jsons.filter (fun j => j.stem ∈ keptStems d R) := rfl
  rw [h₁, sortOn_filter nameKey _ d.jsons (nodup_nameKey_of_nodup_stems hnd),
    sorted_filter_kept d R hnd]

theorem prune_deleted_iff_sum (d : Dir) (R : Int) (j : JsonFile)
    (hnd : (stems d.jsons).Nodup) (hpos : ∀ x ∈ d.jsons, 0 ≤ durOf x)
    (hR : 1 ≤ R) (hj : j ∈ d.jsons) :
    (j.stem ∉ keptStems d R ↔
      (R : Rat) ≤ sumDur (d.jsons.filter
        (fun x => decide (nameKey j < nameKey x)))) := by
  have hperm_v : ((sortOn nameKey d.jsons).reverse).Perm d.jsons :=
    ((sortOn nameKey d.jsons).reverse_perm).trans (sortOn_perm nameKey d.jsons)
  have hpw : ((sortOn nameKey d.jsons).reverse).Pairwise
      (fun a b => nameKey b < nameKey a) := by
    rw [List.pairwise_reverse]
    exact pairwise_lt_of_le_of_nodup nameKey (sortOn_pairwise nameKey d.jsons)
      (((sortOn_perm nameKey d.jsons).map nameKey).symm.nodup
        (nodup_nameKey_of_nodup_stems hnd))
  have hposv : ∀ x ∈ (sortOn nameKey d.jsons).reverse, 0 ≤ durOf x :=
    fun x hx => hpos x (hperm_v.subset hx)
  have hjv : j ∈ (sortOn nameKey d.jsons).reverse := hperm_v.mem_iff.mpr hj
  have h0R : (0 : Rat) < (R : Rat) := by
    exact_mod_cast lt_of_lt_of_le Int.zero_lt_one hR
  have hiff := mem_keepAccum_iff R ((sortOn nameKey d.jsons).reverse) 0 j
    hpw hposv h0R hjv
  have hsum : sumDur (((sortOn nameKey d.jsons).reverse).filter
      (fun x => decide (nameKey j < nameKey x))) =
      sumDur (d.jsons.filter (fun x => decide (nameKey j < nameKey x))) := by
    rw [sumDur, sumDur]
    exact ((hperm_v.filter _).map durOf).sum_eq
  have hstem : j.stem ∈ keptStems d R ↔ j ∈ keptFiles d R := by
    constructor
    · intro hmem
      rcases List.mem_map.mp hmem with ⟨j', hj', hstemEq⟩
      have hj'mem : j' ∈ d.jsons := hperm_v.subset (keepAccum_subset hj')
      have := List.inj_on_of_nodup_map hnd hj'mem hj hstemEq
      exact this ▸ hj'
    · intro hmem
      exact List.mem_map_of_mem (·.stem) hmem
  have hiff2 : j ∈ keptFiles d R ↔
      0 + sumDur (((sortOn nameKey d.jsons).reverse).filter
        (fun x => decide (nameKey j < nameKey x))) < (R : Rat) := hiff
  rw [not_congr hstem, not_congr hiff2, not_lt, zero_add, hsum]

theorem prune_deleted_pair (d : Dir) (R : Int) (j : JsonFile)
    (hj : j ∈ d.jsons) (hdel : j.stem ∉ keptStems d R) :
    (∀ x ∈ (pruneDir d R).jsons, x.stem ≠ j.stem) ∧
    (∀ p ∈ (pruneDir d R).iqs, p.1 ≠ j.stem) := by
  constructor
  · intro x hx hcontra
    have h2 := (List.mem_filter.mp hx).2
    simp only [decide_eq_true_eq] at h2
    exact hdel (hcontra ▸ h2)
  · intro p hp hcontra
    have h2 := (List.mem_filter.mp hp).2
    simp only [decide_eq_true_eq] at h2
    rcases h2 with h2 | h2
    · exact hdel (hcontra ▸ h2)
    · exact h2 (hcontra ▸ List.mem_map_of_mem (·.stem) hj)

/-! ### Lemmas about the extraction pipeline -/

theorem selTest_file {wstart wend : Rat} {j : JsonFile} {e : SelEntry}
    (h : selTest wstart wend j = some e) : e.file = j ∧ j.content.isSome := by
  cases hc : j.content with
  | none => simp [selTest, hc] at h
  | some m =>
    cases ht : m.timestamp_utc with
    | none => simp [selTest, hc, ht] at h
    | some t =>
      simp only [selTest, hc, ht] at h
      by_cases hcond : (t ≤ wend ∧ wstart ≤ t + m.duration_s.getD 0)
      · rw [if_pos hcond] at h
        cases h
        exact ⟨rfl, by simp [hc]⟩
      · rw [if_neg hcond] at h
        cases h

theorem selTest_of_cond {wstart wend : Rat} {j : JsonFile} {m : MetaFields}
    {t : Rat} (hm : j.content = some m) (ht : m.timestamp_utc = some t)
    (hcond : t ≤ wend ∧ wstart ≤ t + m.duration_s.getD 0) :
    selTest wstart wend j = some ⟨t, m.duration_s.getD 0, j⟩ := by
  simp [selTest, hm, ht, hcond]

theorem mem_selectChunks_iff {js : List JsonFile} {wstart wend : Rat}
    {j : JsonFile} {m : MetaFields} {t : Rat} (hj : j ∈ js)
    (hm : j.content = some m) (ht : m.timestamp_utc = some t) :
    ((⟨t, m.duration_s.getD 0, j⟩ : SelEntry) ∈ selectChunks js wstart wend ↔
      (t ≤ wend ∧ wstart ≤ t + m.duration_s.getD 0)) := by
  constructor
  · intro hmem
    rcases List.mem_filterMap.mp hmem with ⟨a, _, hfa⟩
    have hfile : j = a := (selTest_file hfa).1
    subst hfile
    by_cases hcond : (t ≤ wend ∧ wstart ≤ t + m.duration_s.getD 0)
    · exact hcond
    · rw [selTest] at hfa
      simp only [hm, ht] at hfa
      rw [if_neg hcond] at hfa
      cases hfa
  · intro hcond
    exact List.mem_filterMap.mpr ⟨j, hj, selTest_of_cond hm ht hcond⟩

theorem mem_selectChunks_file {js : List JsonFile} {wstart wend : Rat}
    {e : SelEntry} (h : e ∈ selectChunks js wstart wend) :
    e.file ∈ js ∧ e.file.content.isSome := by
  rcases List.mem_filterMap.mp h with ⟨a, ha, hfa⟩
  rcases selTest_file hfa with ⟨hf, hs⟩
  exact ⟨hf ▸ ha, hf ▸ hs⟩

theorem writeLoop_ok_append (iqs : List (String × List Nat)) :
    ∀ (sel : List SelEntry) (acc b : List Nat), writeLoop iqs sel acc = .ok b →
      b = acc ++ (sel.map (fun e => (lookupIq iqs e.file.stem).getD [])).flatten := by
  intro sel
  induction sel with
  | nil =>
    intro acc b h
    simp only [writeLoop] at h
    cases h
    simp
  | cons e rest ih =>
    intro acc b h
    cases hlk : lookupIq iqs e.file.stem with
    | none =>
      simp only [writeLoop, hlk] at h
      exact absurd h (by simp)
    | some bs =>
      simp only [writeLoop, hlk] at h
      have := ih (acc ++ bs) b h
      simp [this, hlk, List.append_assoc]

theorem writeLoop_ok_of_all (iqs : List (String × List Nat)) :
    ∀ (sel : List SelEntry) (acc : List Nat),
      (∀ e ∈ sel, (lookupIq iqs e.file.stem).isSome) →
      ∃ b, writeLoop iqs sel acc = .ok b := by
  intro sel
  induction sel with
  | nil => intro acc _; exact ⟨acc, rfl⟩
  | cons e rest ih =>
    intro acc hall
    cases hlk : lookupIq iqs e.file.stem with
    | none =>
      have := hall e (List.mem_cons_self e rest)
      rw [hlk] at this
      cases this
    | some bs =>
      rcases ih (acc ++ bs) (fun x hx => hall x (List.mem_cons_of_mem e hx)) with ⟨b, hb⟩
      exact ⟨b, by simp only [writeLoop, hlk]; exact hb⟩

theorem writeLoop_error_of_missing (iqs : List (String × List Nat)) :
    ∀ (sel : List SelEntry) (acc : List Nat),
      (∃ e ∈ sel, lookupIq iqs e.file.stem = none) →
      ∃ w, writeLoop iqs sel acc = .error w := by
  intro sel
  induction sel with
  | nil => intro acc h; rcases h with ⟨e, he, _⟩; exact absurd he (by simp)
  | cons e rest ih =>
    intro acc h
    cases hlk : lookupIq iqs e.file.stem with
    | none => exact ⟨acc, by simp only [writeLoop, hlk]⟩
    | some bs =>
      rcases h with ⟨x, hx, hxnone⟩
      rcases List.mem_cons.mp hx with rfl | hxr
      · rw [hlk] at hxnone; cases hxnone
      · rcases ih (acc ++ bs) ⟨x, hxr, hxnone⟩ with ⟨w, hw⟩
        exact ⟨w, by simp only [writeLoop, hlk]; exact hw⟩

theorem extractSlice_sorted_nil {d : Dir} {now rel du tEmit : Rat}
    (h : sortOn SelEntry.t (selectChunks d.jsons (now + rel) (now + rel + du)) = []) :
    extractSlice d now rel du tEmit = .noOverlap := by
  simp only [extractSlice, h]

theorem extractSlice_of_empty {d : Dir} {now rel du tEmit : Rat}
    (h : selectChunks d.jsons (now + rel) (now + rel + du) = []) :
    extractSlice d now rel du tEmit = .noOverlap := by
  apply extractSlice_sorted_nil
  rw [h]
  rfl

theorem extractSlice_ok_inv {d : Dir} {now rel du tEmit : Rat}
    {bytes : List Nat} {desc : Combined}
    (hok : extractSlice d now rel du tEmit = .ok bytes desc) :
    ∃ first rest,
      sortOn SelEntry.t (selectChunks d.jsons (now + rel) (now + rel + du)) =
        first :: rest ∧
      writeLoop d.iqs (first :: rest) [] = .ok bytes ∧
      (∃ m, first.file.content = some m ∧
        m.center_freq_hz = some desc.center_freq_hz ∧
        m.samp_rate_hz = some desc.samp_rate_hz) ∧
      desc.timestamp_utc = tEmit ∧ desc.start_rel_s = rel ∧
      desc.duration_s = du := by
  cases hsel : sortOn SelEntry.t (selectChunks d.jsons (now + rel) (now + rel + du)) with
  | nil =>
    rw [extractSlice_sorted_nil hsel] at hok
    cases hok
  | cons first rest =>
    cases hw : writeLoop d.iqs (first :: rest) [] with
    | error w =>
      simp only [extractSlice, hsel, hw] at hok
      exact absurd hok (by simp)
    | ok bts =>
      cases hc : first.file.content with
      | none =>
        simp only [extractSlice, hsel, hw, hc] at hok
        exact absurd hok (by simp)
      | some m =>
        cases hcf : m.center_freq_hz with
        | none =>
          simp only [extractSlice, hsel, hw, hc, hcf] at hok
          exact absurd hok (by simp)
        | some c =>
          cases hsr : m.samp_rate_hz with
          | none =>
            simp only [extractSlice, hsel, hw, hc, hcf, hsr] at hok
            exact absurd hok (by simp)
          | some s =>
            simp only [extractSlice, hsel, hw, hc, hcf, hsr] at hok
            injection hok with hb hd
            subst hb
            subst hd
            exact ⟨first, rest, rfl, hw, ⟨m, hc, hcf, hsr⟩, rfl, rfl, rfl⟩

theorem dirEq {d₁ d₂ : Dir} (h₁ : d₁.jsons = d₂.jsons) (h₂ : d₁.iqs = d₂.iqs) :
    d₁ = d₂ := by
  cases d₁
  cases d₂
  simp_all

theorem keptFiles_prune (d : Dir) (R : Int) (hnd : (stems d.jsons).Nodup) :
    keptFiles (pruneDir d R) R = keptFiles d R := by
  rw [keptFiles, prune_jsons_sorted d R hnd, List.reverse_reverse, keptFiles]
  exact keepAccum_idem R _ 0

theorem sumDur_const {dd : Rat} :
    ∀ {l : List JsonFile}, (∀ j ∈ l, durOf j = dd) →
      sumDur l = dd * l.length := by
  intro l
  induction l with
  | nil => intro _; simp [sumDur]
  | cons j rest ih =>
    intro hall
    rw [sumDur_cons, hall j (List.mem_cons_self j rest),
      ih (fun x hx => hall x (List.mem_cons_of_mem j hx)), List.length_cons]
    push_cast
    ring

theorem extractSlice_perm (d₁ d₂ : Dir) (now rel du tEmit : Rat)
    (hperm : d₁.jsons.Perm d₂.jsons) (hiq : d₁.iqs = d₂.iqs)
    (hnd : ((selectChunks d₁.jsons (now + rel) (now + rel + du)).map
      SelEntry.t).Nodup) :
    extractSlice d₂ now rel du tEmit = extractSlice d₁ now rel du tEmit := by
  have hsel : sortOn SelEntry.t
      (selectChunks d₂.jsons (now + rel) (now + rel + du)) =
      sortOn SelEntry.t (selectChunks d₁.jsons (now + rel) (now + rel + du)) := by
    refine sortOn_eq_of_perm SelEntry.t
      ((hperm.filterMap (selTest (now + rel) (now + rel + du))).symm) ?_
    exact ((hperm.filterMap (selTest (now + rel) (now + rel + du))).map
      SelEntry.t).nodup hnd
  rw [extractSlice, extractSlice, hsel, ← hiq]

/-! ### Claim C10: pruning is idempotent -/

/-- C10: for every directory state (with the filesystem invariant that
descriptor file names are distinct), running the Retention Enforcer twice in
a row with no chunks added between the runs deletes nothing on the second
run: the directory is unchanged, and the second run's kept set is exactly
the set of chunks remaining after the first run. -/
theorem prune_idempotent (d : Dir) (R : Int) (hnd : (stems d.jsons).Nodup) :
    pruneDir (pruneDir d R) R = pruneDir d R ∧
    (keptFiles (pruneDir d R) R).Perm (pruneDir d R).jsons := by
  have hnd' : (stems (pruneDir d R).jsons).Nodup := by
    have hsub : (pruneDir d R).jsons.Sublist d.jsons := List.filter_sublist d.jsons
    have hnd2 : (d.jsons.map JsonFile.stem).Nodup := hnd
    exact (hsub.map JsonFile.stem).nodup hnd2
  have hkf : keptFiles (pruneDir d R) R = keptFiles d R := keptFiles_prune d R hnd
  have hks : keptStems (pruneDir d R) R = keptStems d R := by
    rw [keptStems, hkf, keptStems]
  constructor
  · apply dirEq
    · show (pruneDir d R).jsons.filter
        (fun j => j.stem ∈ keptStems (pruneDir d R) R) = (pruneDir d R).jsons
      rw [hks, List.filter_eq_self]
      intro a ha
      exact (List.mem_filter.mp ha).2
    · show (pruneDir d R).iqs.filter
        (fun p => p.1 ∈ keptStems (pruneDir d R) R ∨
          p.1 ∉ stems (pruneDir d R).jsons) = (pruneDir d R).iqs
      rw [List.filter_eq_self]
      intro p hp
      simp only [decide_eq_true_eq]
      by_cases hmem : p.1 ∈ stems (pruneDir d R).jsons
      · left
        rw [hks]
        rcases List.mem_map.mp hmem with ⟨j', hj', hstem⟩
        have h2 := (List.mem_filter.mp hj').2
        simp only [decide_eq_true_eq] at h2
        exact hstem ▸ h2
      · right
        exact hmem
  · rw [hkf]
    exact (prune_jsons_perm d R hnd).symm

/-- Witness for C10 at a concrete three-chunk directory with retention 7. -/
theorem prune_idempotent_witness :
    pruneDir (pruneDir dirW10 7) 7 = pruneDir dirW10 7 :=
  (prune_idempotent dirW10 7 (by decide)).1

/-! ### Claim C8: which chunks the pruner keeps -/

/-- C8 (amended): the Retention Enforcer orders descriptors newest-first by
file name (lexicographically), not by the embedded `start_time`, accumulates
`duration_s` in that order, and keeps exactly the chunks visited up to and
including the first at which the running total reaches `retention_s`.
Extensionally, for non-negative durations, distinct names and `R ≥ 1`: a
chunk is deleted exactly when the chunks with lexicographically greater file
names already account for at least `R` seconds. -/
theorem prune_order_amended (d : Dir) (R : Int) (j : JsonFile)
    (hnd : (stems d.jsons).Nodup) (hpos : ∀ x ∈ d.jsons, 0 ≤ durOf x)
    (hR : 1 ≤ R) (hj : j ∈ d.jsons) :
    (j.stem ∉ keptStems d R ↔
      (R : Rat) ≤ sumDur (d.jsons.filter
        (fun x => decide (nameKey j < nameKey x)))) :=
  prune_deleted_iff_sum d R j hnd hpos hR hj

/-- C8 as frozen is false on the code: with chunks named "9" (older, embedded
start 9) and "10" (newer, embedded start 10), durations 5 and retention 5,
the pruner visits "9" first (lexicographically "10.json" < "9.json"), keeps
only "9" and deletes the chunk with the newest embedded start time. -/
theorem prune_order_cex :
    (pruneDir dirX8 5).jsons.map JsonFile.stem = ["9"] ∧
    (mkMeta 100 1000 9 5).timestamp_utc = some 9 ∧
    (mkMeta 100 1000 10 5).timestamp_utc = some 10 ∧
    (9 : Rat) < 10 := by
  have h2 : keptStems dirX8 5 = ["9"] := by
    norm_num [keptStems, keptFiles, keepAccum, sortOn, ordInsert, nameKey,
      strCodes, durOf, dirX8, mkMeta, stems]
  refine ⟨?_, rfl, rfl, by norm_num⟩
  simp only [pruneDir, h2]
  decide

/-- Witness for C8 (amended): in a two-chunk directory with retention 5, the
older chunk "100" is deleted because the newer-named chunk "200" already
accounts for 5 seconds. -/
theorem prune_order_amended_witness :
    (5 : Rat) ≤ sumDur (dirW8.jsons.filter
      (fun x => decide (nameKey (⟨"100", some (mkMeta 100 1000 1 5)⟩ : JsonFile)
        < nameKey x))) := by
  have h2 : keptStems dirW8 5 = ["200"] := by
    norm_num [keptStems, keptFiles, keepAccum, sortOn, ordInsert, nameKey,
      strCodes, durOf, dirW8, mkMeta, stems]
  refine (prune_order_amended dirW8 5 ⟨"100", some (mkMeta 100 1000 1 5)⟩
    (by decide) (by decide) (by decide) (by decide)).mp ?_
  rw [h2]
  decide

/-! ### Claim C1: the retention bound -/

/-- C1 (amended): for a directory of well-formed chunk descriptors (distinct
names) each with nominal duration `dd` and retention `R ≥ 1` second, one run
of the Retention Enforcer leaves a cumulative nominal duration that is at
least `R` and strictly less than `R + dd` whenever the total available
history is at least `R`, and deletes nothing when the total history is less
than `R`. -/
theorem retention_bound_amended (d : Dir) (R : Int) (dd : Rat)
    (hnd : (stems d.jsons).Nodup) (hR : 1 ≤ R)
    (hall : ∀ j ∈ d.jsons, ∃ m, j.content = some m ∧ m.duration_s = some dd) :
    ((R : Rat) ≤ sumDur d.jsons →
      (R : Rat) ≤ sumDur (pruneDir d R).jsons ∧
        sumDur (pruneDir d R).jsons < R + dd) ∧
    (sumDur d.jsons < R → pruneDir d R = d) := by
  have hdur : ∀ j ∈ d.jsons, durOf j = dd := by
    intro j hj
    rcases hall j hj with ⟨m, hm, hmd⟩
    simp [durOf, hm, hmd]
  have hperm_v : ((sortOn nameKey d.jsons).reverse).Perm d.jsons :=
    ((sortOn nameKey d.jsons).reverse_perm).trans (sortOn_perm nameKey d.jsons)
  have hvd : ∀ x ∈ (sortOn nameKey d.jsons).reverse, durOf x = dd :=
    fun x hx => hdur x (hperm_v.subset hx)
  have hsum_v : sumDur ((sortOn nameKey d.jsons).reverse) = sumDur d.jsons := by
    rw [sumDur, sumDur]
    exact (hperm_v.map durOf).sum_eq
  have h0R : (0 : Rat) < (R : Rat) := by
    exact_mod_cast lt_of_lt_of_le Int.zero_lt_one hR
  have hkf : keptFiles d R = keepAccum R 0 ((sortOn nameKey d.jsons).reverse) := rfl
  constructor
  · intro htot
    have hbound := keepAccum_sum_bound R dd ((sortOn nameKey d.jsons).reverse) 0
      hvd h0R (by rw [hsum_v]; linarith)
    have hpp : (pruneDir d R).jsons.Perm (keptFiles d R) := prune_jsons_perm d R hnd
    have hsump : sumDur (pruneDir d R).jsons = sumDur (keptFiles d R) := by
      rw [sumDur, sumDur]
      exact (hpp.map durOf).sum_eq
    rw [hsump, hkf]
    exact ⟨by linarith [hbound.1], by linarith [hbound.2]⟩
  · intro hlt
    have hall_k : ∀ k : ℕ, k < ((sortOn nameKey d.jsons).reverse).length →
        (0 : Rat) + dd * ((k : Rat) + 1) < R := by
      intro k hk
      have hlen : sumDur ((sortOn nameKey d.jsons).reverse) =
          dd * ((sortOn nameKey d.jsons).reverse).length := sumDur_const hvd
      have hvlt : dd * (((sortOn nameKey d.jsons).reverse).length : Rat) < R := by
        rw [← hlen, hsum_v]
        exact hlt
      rcases le_or_lt 0 dd with hdd | hdd
      · have hk1 : ((k : Rat) + 1) ≤ (((sortOn nameKey d.jsons).reverse).length : Rat) := by
          exact_mod_cast hk
        nlinarith
      · have hneg : dd * ((k : Rat) + 1) < 0 :=
          mul_neg_of_neg_of_pos hdd (by positivity)
        linarith
    have hkeq : keepAccum R 0 ((sortOn nameKey d.jsons).reverse) =
        (sortOn nameKey d.jsons).reverse := keepAccum_all R dd _ 0 hvd hall_k
    have hmemk : ∀ a ∈ d.jsons, a.stem ∈ keptStems d R := by
      intro a ha
      have hav : a ∈ keptFiles d R := by
        rw [hkf, hkeq]
        exact hperm_v.mem_iff.mpr ha
      exact List.mem_map_of_mem (·.stem) hav
    apply dirEq
    · show d.jsons.filter (fun j => j.stem ∈ keptStems d R) = d.jsons
      rw [List.filter_eq_self]
      intro a ha
      simp only [decide_eq_true_eq]
      exact hmemk a ha
    · show d.iqs.filter
        (fun p => p.1 ∈ keptStems d R ∨ p.1 ∉ stems d.jsons) = d.iqs
      rw [List.filter_eq_self]
      intro p hp
      simp only [decide_eq_true_eq]
      by_cases hmem : p.1 ∈ stems d.jsons
      · left
        rcases List.mem_map.mp hmem with ⟨j', hj', hstemEq⟩
        exact hstemEq ▸ hmemk j' hj'
      · right
        exact hmem

/-- C1 as frozen is false at retention R = 0: with two complete 5-second
chunks the total history 10 is at least R, but the retained duration after
one run is 5, which is not strictly less than R + d = 5. -/
theorem retention_bound_cex :
    (((0 : Int) : Rat) ≤ sumDur dirX1.jsons) ∧
    ¬ (sumDur (pruneDir dirX1 0).jsons < ((0 : Int) : Rat) + 5) := by
  have h1 : sumDur dirX1.jsons = 10 := by
    norm_num [dirX1, sumDur, durOf, mkMeta]
  have h2 : keptStems dirX1 0 = ["200"] := by
    norm_num [keptStems, keptFiles, keepAccum, sortOn, ordInsert, nameKey,
      strCodes, durOf, dirX1, mkMeta, stems]
  have h3 : (pruneDir dirX1 0).jsons = [⟨"200", some (mkMeta 100 1000 2 5)⟩] := by
    simp only [pruneDir, h2]
    decide
  have h4 : sumDur (pruneDir dirX1 0).jsons = 5 := by
    rw [h3]
    norm_num [sumDur, durOf, mkMeta]
  rw [h1, h4]
  norm_num

/-- Witness for C1 (amended) at three 5-second chunks and retention 12: the
retained duration is in the interval from 12 inclusive to 17 exclusive. -/
theorem retention_bound_amended_witness :
    (((12 : Int) : Rat) ≤ sumDur (pruneDir dirW1 12).jsons ∧
      sumDur (pruneDir dirW1 12).jsons < ((12 : Int) : Rat) + 5) := by
  refine (retention_bound_amended dirW1 12 5 (by decide) (by decide)
    (by decide)).1 ?_
  norm_num [dirW1, sumDur, durOf, mkMeta]

/-! ### Claim C2: the overlap test -/

/-- C2: for every stored chunk with parsed start instant `t` and duration
`dd`, the Window Extractor selects the chunk for the resolved window
`[wstart, wend)` exactly when `t ≤ wend` and `t + dd ≥ wstart`. -/
theorem select_overlap_iff (js : List JsonFile) (wstart wend : Rat)
    (j : JsonFile) (m : MetaFields) (t dd : Rat) (hj : j ∈ js)
    (hm : j.content = some m) (ht : m.timestamp_utc = some t)
    (hd : m.duration_s = some dd) :
    ((⟨t, dd, j⟩ : SelEntry) ∈ selectChunks js wstart wend ↔
      (t ≤ wend ∧ wstart ≤ t + dd)) := by
  have hgd : m.duration_s.getD 0 = dd := by rw [hd]; rfl
  have h := @mem_selectChunks_iff js wstart wend j m t hj hm ht
  rw [hgd] at h
  exact h

/-- Witness for C2: with chunks starting at 0, 5, 10, 15 (duration 5) and
window [3, 12), the chunk at 10 is selected and the selection is exactly
the chunks at 0, 5, 10. -/
theorem select_overlap_iff_witness :
    ((⟨10, 5, ⟨"10", some (mkMeta 100 1000 10 5)⟩⟩ : SelEntry) ∈
      selectChunks dirC2.jsons 3 12) ∧
    (selectChunks dirC2.jsons 3 12).map (fun e => e.file.stem) =
      ["0", "5", "10"] := by
  constructor
  · exact (select_overlap_iff dirC2.jsons 3 12
      ⟨"10", some (mkMeta 100 1000 10 5)⟩ (mkMeta 100 1000 10 5) 10 5
      (by decide) rfl rfl rfl).mpr (by norm_num)
  · norm_num [selectChunks, selTest, dirC2, mkMeta, List.filterMap_cons]

/-! ### Claim C4: the empty-window failure -/

/-- C4: when the resolved window overlaps no stored chunk, the extraction
operation terminates with a non-zero status and writes neither the raw
output artifact nor its descriptor. -/
theorem extract_empty_fails (d : Dir) (now rel du tEmit : Rat)
    (h : ∀ j ∈ d.jsons, ∀ m, j.content = some m →
      ∀ t, m.timestamp_utc = some t →
        ¬ (t ≤ now + rel + du ∧ now + rel ≤ t + m.duration_s.getD 0)) :
    extractSlice d now rel du tEmit = .noOverlap ∧
    rawArtifact (extractSlice d now rel du tEmit) = none ∧
    descArtifact (extractSlice d now rel du tEmit) = none ∧
    extractExit (extractSlice d now rel du tEmit) = 1 := by
  have hsel : selectChunks d.jsons (now + rel) (now + rel + du) = [] := by
    rw [selectChunks, List.filterMap_eq_nil_iff]
    intro j hj
    cases hc : j.content with
    | none => simp [selTest, hc]
    | some m =>
      cases ht : m.timestamp_utc with
      | none => simp [selTest, hc, ht]
      | some t =>
        simp only [selTest, hc, ht]
        rw [if_neg (h j hj m hc t ht)]
  have he := @extractSlice_of_empty d now rel du tEmit hsel
  rw [he]
  exact ⟨rfl, rfl, rfl, rfl⟩

/-- Witness for C4: one stored chunk at instant 100 and the resolved window
[0, 5): the extraction exits 1 and produces no artifacts. -/
theorem extract_empty_fails_witness :
    extractSlice dirW4 0 0 5 9 = .noOverlap ∧
    rawArtifact (extractSlice dirW4 0 0 5 9) = none ∧
    descArtifact (extractSlice dirW4 0 0 5 9) = none ∧
    extractExit (extractSlice dirW4 0 0 5 9) = 1 := by
  refine extract_empty_fails dirW4 0 0 5 9 ?_
  intro j hj m hm t ht
  have hj' : j = ⟨"100", some (mkMeta 100 1000 100 5)⟩ := by
    simpa [dirW4] using hj
  subst hj'
  simp only [mkMeta, Option.some.injEq] at hm
  subst hm
  simp only [mkMeta, Option.some.injEq] at ht
  subst ht
  norm_num

/-! ### Claim C9: descriptor pass-through -/

/-- C9: a successful extraction's output descriptor records the originally
requested relative window (`start_rel_s`, `duration_s`), and its
`center_freq_hz` and `samp_rate_hz` are those of an earliest selected chunk
(one whose parsed start instant is not after any other selected chunk's). -/
theorem extract_desc_passthrough (d : Dir) (now rel du tEmit : Rat)
    (bytes : List Nat) (desc : Combined)
    (hok : extractSlice d now rel du tEmit = .ok bytes desc) :
    desc.start_rel_s = rel ∧ desc.duration_s = du ∧
    ∃ e, e ∈ selectChunks d.jsons (now + rel) (now + rel + du) ∧
      (∀ x ∈ selectChunks d.jsons (now + rel) (now + rel + du), e.t ≤ x.t) ∧
      ∃ m, e.file.content = some m ∧
        m.center_freq_hz = some desc.center_freq_hz ∧
        m.samp_rate_hz = some desc.samp_rate_hz := by
  rcases extractSlice_ok_inv hok with
    ⟨first, rest, hsel, _, ⟨m, hc, hcf, hsr⟩, _, hrel, hdu⟩
  refine ⟨hrel, hdu, first, ?_, ?_, m, hc, hcf, hsr⟩
  · have hmem : first ∈ sortOn SelEntry.t
        (selectChunks d.jsons (now + rel) (now + rel + du)) := by
      rw [hsel]
      exact List.mem_cons_self first rest
    exact (sortOn_perm SelEntry.t _).subset hmem
  · intro x hx
    have hx' : x ∈ first :: rest := by
      rw [← hsel]
      exact (sortOn_perm SelEntry.t _).mem_iff.mpr hx
    have hpw : (first :: rest).Pairwise (fun a b => SelEntry.t a ≤ SelEntry.t b) := by
      rw [← hsel]
      exact sortOn_pairwise SelEntry.t _
    rcases List.mem_cons.mp hx' with rfl | hxr
    · exact le_refl _
    · exact (List.pairwise_cons.mp hpw).1 x hxr

/-- Witness for C9: two chunks with different capture parameters; the
extraction descriptor carries the earliest chunk's parameters (111, 1000)
and the requested relative window (0, 10). -/
theorem extract_desc_passthrough_witness :
    ∃ e, e ∈ selectChunks dirW9.jsons (0 + 0) (0 + 0 + 10) ∧
      (∀ x ∈ selectChunks dirW9.jsons (0 + 0) (0 + 0 + 10), e.t ≤ x.t) ∧
      ∃ m, e.file.content = some m ∧
        m.center_freq_hz = some (⟨111, 1000, 99, 0, 10⟩ : Combined).center_freq_hz ∧
        m.samp_rate_hz = some (⟨111, 1000, 99, 0, 10⟩ : Combined).samp_rate_hz := by
  refine (extract_desc_passthrough dirW9 0 0 10 99 [1, 2]
    ⟨111, 1000, 99, 0, 10⟩ ?_).2.2
  norm_num [extractSlice, selectChunks, selTest, dirW9, mkMeta, sortOn,
    ordInsert, writeLoop, lookupIq, List.filterMap_cons, List.find?]
  decide

/-! ### Claim C3: ordering of the output stream -/

/-- C3 (amended): for every successful extraction whose selected chunks have
pairwise-distinct start instants, the output byte stream is the
concatenation of the selected chunks' raw artifacts sorted ascending by
start instant, whole chunks with no trimming, and the same result is
produced for any directory enumeration order. -/
theorem extract_order_amended (d₁ d₂ : Dir) (now rel du tEmit : Rat)
    (bytes : List Nat) (desc : Combined)
    (hperm : d₁.jsons.Perm d₂.jsons) (hiq : d₁.iqs = d₂.iqs)
    (hnd : ((selectChunks d₁.jsons (now + rel) (now + rel + du)).map
      SelEntry.t).Nodup)
    (hok : extractSlice d₁ now rel du tEmit = .ok bytes desc) :
    extractSlice d₂ now rel du tEmit = .ok bytes desc ∧
    bytes = ((sortOn SelEntry.t (selectChunks d₁.jsons (now + rel)
      (now + rel + du))).map
      (fun e => (lookupIq d₁.iqs e.file.stem).getD [])).flatten := by
  constructor
  · rw [extractSlice_perm d₁ d₂ now rel du tEmit hperm hiq hnd]
    exact hok
  · rcases extractSlice_ok_inv hok with ⟨first, rest, hsel, hw, _, _, _, _⟩
    have hb := writeLoop_ok_append d₁.iqs (first :: rest) [] bytes hw
    rw [hsel]
    simpa using hb

/-- C3 as frozen is false when two selected chunks share a start time: the
same physical directory enumerated in two orders yields two different output
byte streams (both extractions succeed), so the output is not independent of
enumeration order. -/
theorem extract_order_cex :
    extractSlice dirX3a 0 8 4 99 = .ok [1, 2] ⟨100, 1000, 99, 8, 4⟩ ∧
    extractSlice dirX3b 0 8 4 99 = .ok [2, 1] ⟨100, 1000, 99, 8, 4⟩ ∧
    dirX3b.jsons.Perm dirX3a.jsons ∧ dirX3b.iqs = dirX3a.iqs ∧
    ([1, 2] : List Nat) ≠ [2, 1] := by
  refine ⟨?_, ?_, ?_, rfl, by decide⟩
  · norm_num [extractSlice, selectChunks, selTest, dirX3a, mkMeta, sortOn,
      ordInsert, writeLoop, lookupIq, List.filterMap_cons, List.find?]
    decide
  · norm_num [extractSlice, selectChunks, selTest, dirX3b, mkMeta, sortOn,
      ordInsert, writeLoop, lookupIq, List.filterMap_cons, List.find?]
    decide
  · show ((⟨"8", some (mkMeta 100 1000 10 5)⟩ : JsonFile) ::
      [⟨"7", some (mkMeta 100 1000 10 5)⟩]).Perm _
    exact List.Perm.swap _ _ _

/-- Witness for C3 (amended): extracting from the reverse-enumerated
directory of `dirC2` yields the same stream, concatenated ascending by start
instant. -/
theorem extract_order_amended_witness :
    extractSlice dirC2b 0 3 9 99 = .ok [0, 5, 10] ⟨100, 1000, 99, 3, 9⟩ := by
  have h1 : extractSlice dirC2 0 3 9 99 = .ok [0, 5, 10] ⟨100, 1000, 99, 3, 9⟩ := by
    norm_num [extractSlice, selectChunks, selTest, dirC2, mkMeta, sortOn,
      ordInsert, writeLoop, lookupIq, List.filterMap_cons, List.find?]
    decide
  have hperm : dirC2.jsons.Perm dirC2b.jsons := by
    have hrev : dirC2b.jsons = dirC2.jsons.reverse := by decide
    rw [hrev]
    exact (dirC2.jsons.reverse_perm).symm
  have hsel : selectChunks dirC2.jsons (0 + 3) (0 + 3 + 9) =
      [⟨0, 5, ⟨"0", some (mkMeta 100 1000 0 5)⟩⟩,
       ⟨5, 5, ⟨"5", some (mkMeta 100 1000 5 5)⟩⟩,
       ⟨10, 5, ⟨"10", some (mkMeta 100 1000 10 5)⟩⟩] := by
    norm_num [selectChunks, selTest, dirC2, mkMeta, List.filterMap_cons]
  have hnd : ((selectChunks dirC2.jsons (0 + 3) (0 + 3 + 9)).map
      SelEntry.t).Nodup := by
    rw [hsel]
    decide
  exact (extract_order_amended dirC2 dirC2b 0 3 9 99 [0, 5, 10]
    ⟨100, 1000, 99, 3, 9⟩ hperm rfl hnd h1).1

/-! ### Claim C5: tolerance of unpaired artifacts -/

/-- C5 (amended): a raw-sample file with no descriptor is excluded from
pruning (never deleted, never counted) and can never be selected (selection
ranges over descriptors only), with no error; but a descriptor whose raw
file is missing is NOT excluded: the pruner's keep/delete decision counts
its `duration_s` (it depends only on the descriptors), and if such a chunk
is selected, the failing raw read aborts the whole extraction with a
non-zero status and no output descriptor. -/
theorem pair_tolerance_amended :
    (∀ (d : Dir) (R : Int) (p : String × List Nat), p ∈ d.iqs →
      p.1 ∉ stems d.jsons → p ∈ (pruneDir d R).iqs) ∧
    (∀ (js : List JsonFile) (w1 w2 : Rat) (e : SelEntry),
      e ∈ selectChunks js w1 w2 → e.file ∈ js ∧ e.file.content.isSome) ∧
    (∀ (js : List JsonFile) (iqs₁ iqs₂ : List (String × List Nat)) (R : Int),
      (pruneDir ⟨js, iqs₁⟩ R).jsons.map JsonFile.stem =
        (pruneDir ⟨js, iqs₂⟩ R).jsons.map JsonFile.stem) ∧
    (∀ (d : Dir) (now rel du tEmit : Rat) (e : SelEntry),
      e ∈ selectChunks d.jsons (now + rel) (now + rel + du) →
      lookupIq d.iqs e.file.stem = none →
      ∃ w, extractSlice d now rel du tEmit = .readFail w ∧
        descArtifact (ExtractResult.readFail w) = none ∧
        extractExit (ExtractResult.readFail w) = 1) := by
  refine ⟨?_, ?_, ?_, ?_⟩
  · intro d R p hp hnot
    refine List.mem_filter.mpr ⟨hp, ?_⟩
    simp only [decide_eq_true_eq]
    right
    exact hnot
  · intro js w1 w2 e he
    exact mem_selectChunks_file he
  · intro js iqs₁ iqs₂ R
    rfl
  · intro d now rel du tEmit e hmem hmiss
    cases hsel : sortOn SelEntry.t
        (selectChunks d.jsons (now + rel) (now + rel + du)) with
    | nil =>
      have hmem' : e ∈ sortOn SelEntry.t
          (selectChunks d.jsons (now + rel) (now + rel + du)) :=
        (sortOn_perm SelEntry.t _).mem_iff.mpr hmem
      rw [hsel] at hmem'
      exact absurd hmem' (by simp)
    | cons f r =>
      have hmem' : e ∈ f :: r := by
        rw [← hsel]
        exact (sortOn_perm SelEntry.t _).mem_iff.mpr hmem
      rcases writeLoop_error_of_missing d.iqs (f :: r) [] ⟨e, hmem', hmiss⟩
        with ⟨w, hw⟩
      refine ⟨w, ?_, rfl, rfl⟩
      simp only [extractSlice, hsel, hw]

/-- C5 as frozen is false on the code.  Extraction side: a selected chunk
with a missing raw file is not skipped — the extraction aborts (exit 1)
after creating an empty output file.  Pruning side: a descriptor-only chunk
("200", no raw file) is counted by the retention accounting, so the complete
chunk "100" is deleted where the claim predicts it would be kept. -/
theorem pair_tolerance_cex :
    extractSlice dirX5e 0 0 5 9 = .readFail [] ∧
    extractExit (extractSlice dirX5e 0 0 5 9) = 1 ∧
    lookupIq dirX5e.iqs "100" = none ∧
    (pruneDir dirX5p 5).jsons.map JsonFile.stem = ["200"] ∧
    lookupIq dirX5p.iqs "200" = none ∧
    (pruneDir dirX5p 5).iqs = [] := by
  have he : extractSlice dirX5e 0 0 5 9 = .readFail [] := by
    norm_num [extractSlice, selectChunks, selTest, dirX5e, mkMeta, sortOn,
      ordInsert, writeLoop, lookupIq, List.filterMap_cons, List.find?]
  have h2 : keptStems dirX5p 5 = ["200"] := by
    norm_num [keptStems, keptFiles, keepAccum, sortOn, ordInsert, nameKey,
      strCodes, durOf, dirX5p, mkMeta, stems]
  refine ⟨he, by rw [he]; rfl, rfl, ?_, rfl, ?_⟩
  · simp only [pruneDir, h2]
    decide
  · simp only [pruneDir, h2]
    decide

/-- Witness for C5 (amended): the single descriptor of `dirW5` is selected
for the window [0, 5) but its raw file is missing, and the extraction
aborts with `readFail`. -/
theorem pair_tolerance_amended_witness :
    ∃ w, extractSlice dirW5 0 0 5 9 = .readFail w ∧
      descArtifact (ExtractResult.readFail w) = none ∧
      extractExit (ExtractResult.readFail w) = 1 := by
  refine pair_tolerance_amended.2.2.2 dirW5 0 0 5 9
    ⟨0, 5, ⟨"100", some (mkMeta 100 1000 0 5)⟩⟩ ?_ rfl
  have hsel : selectChunks dirW5.jsons (0 + 0) (0 + 0 + 5) =
      [⟨0, 5, ⟨"100", some (mkMeta 100 1000 0 5)⟩⟩] := by
    norm_num [selectChunks, selTest, dirW5, mkMeta, List.filterMap_cons]
  rw [hsel]
  exact List.mem_singleton.mpr rfl

/-! ### Claim C6: malformed descriptors -/

/-- C6 (amended): the Window Extractor silently excludes a chunk with a
malformed descriptor from selection, with no error.  The Retention Enforcer
raises no error and counts a malformed descriptor as zero duration: for
retention settings `R ≥ 1` (and distinct file names) the set of valid chunks
it keeps is exactly as if the malformed chunks were absent.  But the
malformed chunk itself is not excluded from consideration: it is an ordinary
keep/delete candidate in newest-first filename order — under distinct names,
non-negative durations and `R ≥ 1` it is deleted exactly when the chunks
with lexicographically greater file names already total at least `R` — and a
chunk outside the kept set loses both of its artifacts. -/
theorem malformed_skip_amended :
    (∀ (js : List JsonFile) (w1 w2 : Rat) (j : JsonFile), j ∈ js →
      j.content = none → ∀ e ∈ selectChunks js w1 w2, e.file ≠ j) ∧
    (∀ (d : Dir) (R : Int), (stems d.jsons).Nodup → 1 ≤ R →
      ((pruneDir d R).jsons.filter validJson).Perm
        ((pruneDir ⟨d.jsons.filter validJson, d.iqs⟩ R).jsons)) ∧
    (∀ (d : Dir) (R : Int) (j : JsonFile), (stems d.jsons).Nodup →
      (∀ x ∈ d.jsons, 0 ≤ durOf x) → 1 ≤ R → j ∈ d.jsons →
      j.content = none →
      (j.stem ∉ keptStems d R ↔
        (R : Rat) ≤ sumDur (d.jsons.filter
          (fun x => decide (nameKey j < nameKey x))))) ∧
    (∀ (d : Dir) (R : Int) (j : JsonFile), j ∈ d.jsons →
      j.stem ∉ keptStems d R →
      (∀ x ∈ (pruneDir d R).jsons, x.stem ≠ j.stem) ∧
      (∀ p ∈ (pruneDir d R).iqs, p.1 ≠ j.stem)) := by
  refine ⟨?_, ?_, ?_, ?_⟩
  · intro js w1 w2 j hj hnone e he hef
    have hsome := (mem_selectChunks_file he).2
    rw [hef, hnone] at hsome
    cases hsome
  · intro d R hnd hR
    have h0R : (0 : Rat) < (R : Rat) := by
      exact_mod_cast lt_of_lt_of_le Int.zero_lt_one hR
    have hnd2 : (stems (d.jsons.filter validJson)).Nodup := by
      have hnd3 : (d.jsons.map JsonFile.stem).Nodup := hnd
      exact ((d.jsons.filter_sublist).map JsonFile.stem).nodup hnd3
    have hpf : ((pruneDir d R).jsons.filter validJson).Perm
        ((keptFiles d R).filter validJson) :=
      (prune_jsons_perm d R hnd).filter validJson
    have hk : (keptFiles d R).filter validJson =
        keepAccum R 0 (((sortOn nameKey d.jsons).reverse).filter validJson) :=
      keepAccum_filter_valid R _ 0 h0R
    have hsort : sortOn nameKey (d.jsons.filter validJson) =
        (sortOn nameKey d.jsons).filter validJson :=
      sortOn_filter nameKey validJson d.jsons (nodup_nameKey_of_nodup_stems hnd)
    have heq : (keptFiles d R).filter validJson =
        keptFiles ⟨d.jsons.filter validJson, d.iqs⟩ R := by
      rw [hk]
      show keepAccum R 0 (((sortOn nameKey d.jsons).reverse).filter validJson) =
        keepAccum R 0 ((sortOn nameKey (d.jsons.filter validJson)).reverse)
      rw [hsort, List.filter_reverse]
    have hperm2 := prune_jsons_perm ⟨d.jsons.filter validJson, d.iqs⟩ R hnd2
    have hfinal := hpf
    rw [heq] at hfinal
    exact hfinal.trans hperm2.symm
  · intro d R j hnd hpos hR hj _
    exact prune_deleted_iff_sum d R j hnd hpos hR hj
  · intro d R j hj hdel
    exact prune_deleted_pair d R j hj hdel

/-- C6 as frozen is false on the code: the malformed descriptor "100" is not
left untouched by the pruner — with retention 5 and a newer valid 5-second
chunk, both of its artifacts are deleted. -/
theorem malformed_skip_cex :
    (⟨"100", none⟩ : JsonFile) ∈ dirX6.jsons ∧
    lookupIq dirX6.iqs "100" = some [1] ∧
    (pruneDir dirX6 5).jsons.map JsonFile.stem = ["200"] ∧
    lookupIq (pruneDir dirX6 5).iqs "100" = none := by
  have h2 : keptStems dirX6 5 = ["200"] := by
    norm_num [keptStems, keptFiles, keepAccum, sortOn, ordInsert, nameKey,
      strCodes, durOf, dirX6, mkMeta, stems]
  refine ⟨by decide, rfl, ?_, ?_⟩
  · simp only [pruneDir, h2]
    decide
  · simp only [pruneDir, h2]
    decide

/-- Witness for C6 (amended): in `dirW6` (a malformed descriptor "50" next
to two valid chunks) with retention 5, the valid chunks kept by a prune
equal those kept when pruning the directory restricted to its valid
descriptors, and the malformed chunk "50" is deleted because the
greater-named chunks already total 10 ≥ 5 seconds. -/
theorem malformed_skip_amended_witness :
    ((pruneDir dirW6 5).jsons.filter validJson).Perm
      ((pruneDir ⟨dirW6.jsons.filter validJson, dirW6.iqs⟩ 5).jsons) ∧
    (⟨"50", none⟩ : JsonFile).stem ∉ keptStems dirW6 5 := by
  constructor
  · exact malformed_skip_amended.2.1 dirW6 5 (by decide) (by decide)
  · refine (malformed_skip_amended.2.2.1 dirW6 5 ⟨"50", none⟩ (by decide)
      (by decide) (by decide) (by decide) rfl).mpr ?_
    have hf : dirW6.jsons.filter
        (fun x => decide (nameKey (⟨"50", none⟩ : JsonFile) < nameKey x)) =
        [⟨"60", some (mkMeta 100 1000 6 5)⟩,
         ⟨"70", some (mkMeta 100 1000 7 5)⟩] := by
      decide
    rw [hf]
    norm_num [sumDur, durOf, mkMeta]

/-! ### Claim C7: the instant recorded for a chunk -/

/-- C7 concerns a code bug: the chunk's file-name identity is built from
`t0` (the clock reading taken before the blocking device read), but the
descriptor's `timestamp_utc` is a later clock reading taken after that read
returns.  Evaluated at `t0 = 1000` with the read returning at `1005`: the
artifacts are named "1000000" (t0 in milliseconds) while the descriptor
records instant 1005, not t0. -/
theorem capture_timestamp_bug :
    (captureChunkFiles 100000000 2400000 5 1000 1005 [1, 2]).1.stem =
      toString (1000000 : Int) ∧
    (∃ m, (captureChunkFiles 100000000 2400000 5 1000 1005 [1, 2]).1.content
      = some m ∧ m.timestamp_utc = some 1005) ∧
    ((1005 : Rat) ≠ 1000) := by
  refine ⟨?_, ⟨_, rfl, rfl⟩, by norm_num⟩
  show toString (pyTrunc ((1000 : Rat) * 1000)) = toString (1000000 : Int)
  have h : pyTrunc ((1000 : Rat) * 1000) = 1000000 := by
    norm_num [pyTrunc]
  rw [h]

end SdrRewind
